import Mathlib

/-!
Shallow embedding of the medSpellCheck candidate-generation and scoring
engine (src/jamspell/spell_corrector.cpp, namespace NJamSpell), together
with proofs checking the natural-language specification against it.

Modelling conventions:
* A word token (`TWord`, a pointer/length view whose equality is
  code-point-sequence equality) is modelled as a `List Char`.  `GetWord`
  looks a string up in the vocabulary and returns the stored token, whose
  code-point sequence equals the query, so the canonical/original token
  distinction is invisible under this faithful quotient.
* `std::wstring` operations (`substr`, concatenation) are modelled with
  `List.take`/`List.drop`/append, index for index.
* The language model is out of scope of the spec (its capability set is
  consumed through the interface of spec section 6.1); it is modelled as a
  structure of opaque-but-total fields.
* Language-model scores are C++ `double`; they are idealised as `ℚ` here.
  Every claim settled below concerns which arithmetic adjustment is applied,
  never floating-point rounding.
* `TBloomFilter` is code of this repository that is not under src/ (only
  its callers are).  Modelled from the spec: section 4.A and the glossary
  promise membership with "bounded false-positive rate and zero false
  negatives"; the model keeps the exact multiset of inserted keys and
  answers membership exactly.  A real filter's `Contains` is a superset of
  this model's, so positive containment results transfer; a key that was
  never inserted has no containment guarantee, which is what the one
  refutation below exhibits.  The `WideToUTF8` conversion at filter ingress
  is injective and is modelled as the identity.
* `std::unordered_set` iteration order is unspecified; it is modelled as
  `List.dedup` order.  `std::sort` gives no stability guarantee; it is
  modelled as a sorting function, and no settled claim relies on the
  model's tie order.
* The header spell_corrector.hpp is not under src/.  Modelled from the
  spec: the declaration of `Edits2` carries a `lastLevel` default.  The
  default must be `true`: the recursive call `Edits2(TWord(s))` uses the
  default, so any other value would make `Edits2` fail to terminate
  (spec section 9 calls the recursive variant vestigial).  The call at
  line 72 therefore runs `Edits2` with `lastLevel = true`.
-/

namespace MedSpell

/-- A word token: the sequence of code points it denotes. -/
abbrev W := List Char

/-- Bloom filter over (UTF-8 encodings of) strings.  Modelled from the
spec: the exact set of inserted keys; see the header comment. -/
structure TBloomFilter where
  inserted : List W := []
deriving DecidableEq

/-- Bloom-filter insertion (`TBloomFilter::Insert`). -/
def TBloomFilter.Insert (f : TBloomFilter) (s : W) : TBloomFilter :=
  ⟨f.inserted ++ [s]⟩

/-- Bloom-filter membership (`TBloomFilter::Contains`). -/
def TBloomFilter.Contains (f : TBloomFilter) (s : W) : Bool :=
  decide (s ∈ f.inserted)

/-- The language-model capability set consumed by the engine
(spec section 6.1); out of scope of the spec, hence opaque total fields. -/
structure TLangModel where
  wordToId : List (W × Nat)
  counts : Nat → Nat
  alphabet : List Char
  score : List W → ℚ
  checkSum : Nat

/-- Vocabulary lookup (`TLangModel::GetWord`): returns the stored token for
the queried code-point string, whose content equals the query. -/
def GetWord (m : TLangModel) (w : W) : Option W :=
  if m.wordToId.any (fun p => decide (p.1 = w)) then some w else none

/-- The `if (c.Ptr && c.Len) result.push_back(c)` idiom: the singleton list
of the vocabulary hit for `s`, or the empty list. -/
def vocabHit (m : TLangModel) (s : W) : List W :=
  match GetWord m s with
  | some c => [c]
  | none => []

/-- `TLangModel::GetWordIdNoCreate`, modelled as association-list lookup. -/
def GetWordIdNoCreate (m : TLangModel) (w : W) : Nat :=
  match m.wordToId.find? (fun p => decide (p.1 = w)) with
  | some p => p.2
  | none => 0

/-- `LangModel.GetWordCount(LangModel.GetWordIdNoCreate(c))` as used by the
frequency pruner (spell_corrector.cpp line 162). -/
def wordCountOf (m : TLangModel) (w : W) : Nat :=
  m.counts (GetWordIdNoCreate m w)

/-- `w.substr(0, i) + w.substr(i+1)`: delete the character at index `i`. -/
def eraseAt (w : W) (i : Nat) : W :=
  w.take i ++ w.drop (i + 1)

/-- `w.substr(0, i) + ch + w.substr(i+1)`: replace the character at `i`. -/
def replaceAt (w : W) (i : Nat) (ch : Char) : W :=
  w.take i ++ [ch] ++ w.drop (i + 1)

/-- `w.substr(0, i) + ch + w.substr(i)`: insert `ch` before index `i`. -/
def insertAt (w : W) (i : Nat) (ch : Char) : W :=
  w.take i ++ [ch] ++ w.drop i

/-- The transpose branch of `Edits2` (lines 385-390): swap positions `i`
and `i+1`, mirroring the `substr` calls including the guarded tail. -/
def transposeAt (w : W) (i : Nat) : W :=
  w.take i ++ (w.drop (i + 1)).take 1 ++ (w.drop i).take 1 ++
    (if i + 2 < w.length then w.drop (i + 2) else [])

/-- `GetDeletes1` (lines 13-22): all nonempty single-character deletions. -/
def GetDeletes1 (w : W) : List W :=
  (List.range w.length).filterMap fun i =>
    let nw := eraseAt w i
    if nw.isEmpty then none else some nw

/-- `GetDeletes2` (lines 24-35): for each nonempty single deletion `nw`,
the group `GetDeletes1 nw ++ [nw]`. -/
def GetDeletes2 (w : W) : List (List W) :=
  (List.range w.length).filterMap fun i =>
    let nw := eraseAt w i
    if nw.isEmpty then none else some (GetDeletes1 nw ++ [nw])

/-- The strings generated at loop index `i` of `TSpellCorrector::Edits2`
(lines 370-427), in emission order: delete, transpose, replace over the
alphabet, insert over the alphabet. -/
def edits2Gen (alphabet : List Char) (w : W) (i : Nat) : List W :=
  (if i < w.length then [eraseAt w i] else []) ++
  (if i + 1 < w.length then [transposeAt w i] else []) ++
  (if i < w.length then alphabet.map (replaceAt w i) else []) ++
  alphabet.map (insertAt w i)

/-- The loop skeleton of `TSpellCorrector::Edits2`: for each `i` up to
`w.size()` and each generated string `s`, emit the vocabulary hit for `s`
followed by `deeper s` (the recursive expansion, empty when `lastLevel`). -/
def edits2Core (m : TLangModel) (w : W) (deeper : W → List W) : List W :=
  (List.range (w.length + 1)).flatMap fun i =>
    (edits2Gen m.alphabet w i).flatMap fun s => vocabHit m s ++ deeper s

/-- `TSpellCorrector::Edits2(word, lastLevel)` (lines 366-430).  The
recursive calls `Edits2(TWord(s))` use the header's default
`lastLevel = true` (see the header comment), so they expand one level with
no further recursion. -/
def Edits2 (m : TLangModel) (w : W) (lastLevel : Bool) : List W :=
  edits2Core m w fun s =>
    bif lastLevel then [] else edits2Core m s fun _ => []

/-- Engine state (`TSpellCorrector` members). -/
structure TSpellCorrector where
  LangModel : TLangModel
  Deletes1 : TBloomFilter
  Deletes2 : TBloomFilter
  KnownWordsPenalty : ℚ
  UnknownWordsPenalty : ℚ
  MaxCandiatesToCheck : Nat

/-- `TSpellCorrector::Inserts` (lines 432-442): vocabulary hits of all
single-character insertions into `w` over the alphabet. -/
def Inserts (m : TLangModel) (w : W) : List W :=
  (List.range (w.length + 1)).flatMap fun i =>
    m.alphabet.flatMap fun ch => vocabHit m (insertAt w i ch)

/-- `TSpellCorrector::Inserts2` (lines 444-453): for each single insertion
`s` that the `Deletes1` filter reports, the hits of `Inserts s`. -/
def Inserts2 (e : TSpellCorrector) (w : W) : List W :=
  (List.range (w.length + 1)).flatMap fun i =>
    e.LangModel.alphabet.flatMap fun ch =>
      let s := insertAt w i ch
      bif e.Deletes1.Contains s then Inserts e.LangModel s else []

/-- `TSpellCorrector::Edits` (lines 340-364): the bloom-filter-accelerated
symmetric-delete enumeration.  For every `s` in the deletion neighbourhood
of `w` (including `w` itself), emit the vocabulary hit for `s`, then the
insertions of `s` when `Deletes1` reports `s`, then the double insertions
when `Deletes2` reports `s`. -/
def Edits (e : TSpellCorrector) (w : W) : List W :=
  (GetDeletes2 w ++ [[w]]).flatMap fun w1 =>
    w1.flatMap fun s =>
      vocabHit e.LangModel s ++
      (bif e.Deletes1.Contains s then Inserts e.LangModel s else []) ++
      (bif e.Deletes2.Contains s then Inserts2 e s else [])

/-- Lines 72-79 of `GetCandidatesScoredRaw`: run `Edits2` (with the
default `lastLevel = true`) first; when it returns no candidates fall back
to `Edits`, clearing the `firstLevel` flag.  Returns the selected
candidate list and the flag. -/
def candidateSelection (e : TSpellCorrector) (w : W) : List W × Bool :=
  let cands := Edits2 e.LangModel w true
  bif cands.isEmpty then (Edits e w, false) else (cands, true)

/-- Lines 85-94: resolve the query word against the vocabulary.  Returns
the (canonical when known) token and the `knownWord` flag. -/
def resolveWord (m : TLangModel) (w : W) : W × Bool :=
  match GetWord m w with
  | some c => (c, true)
  | none => (w, false)

/-- A scored candidate (`TScoredWord`). -/
structure TScoredWord where
  Word : W
  Score : ℚ
deriving DecidableEq

/-- `TSpellCorrector::FilterCandidatesByFrequency` (lines 154-174).  The
candidate set is modelled as the list of its members; when it exceeds the
cap, the members are stably sorted by descending word count, the first
`MaxCandiatesToCheck` are kept, and the original query token is inserted
back (set insertion: a no-op when already present). -/
def FilterCandidatesByFrequency (e : TSpellCorrector) (uniqueCandidates : List W)
    (origWord : W) : List W :=
  if uniqueCandidates.length ≤ e.MaxCandiatesToCheck then uniqueCandidates
  else
    let candidateCounts := uniqueCandidates.map fun c => (wordCountOf e.LangModel c, c)
    let sorted := List.insertionSort (fun a b : Nat × W => b.1 ≤ a.1) candidateCounts
    let kept := (sorted.take e.MaxCandiatesToCheck).map Prod.snd
    if origWord ∈ kept then kept else kept ++ [origWord]

/-- One step of the window-building loop of lines 104-113: index `i`
contributes the candidate at the query position, the original token within
two positions of it, and nothing elsewhere. -/
def windowGo (s : List W) (i : Nat) (position : Nat) (cand : W) : List W :=
  match s with
  | [] => []
  | t :: rest =>
    (if i = position then [cand]
     else if (i < position ∧ position ≤ i + 2) ∨ (position < i ∧ i ≤ position + 2)
     then [t] else []) ++ windowGo rest (i + 1) position cand

/-- The local window sentence built for a candidate (lines 104-113). -/
def windowAt (sentence : List W) (position : Nat) (cand : W) : List W :=
  windowGo sentence 0 position cand

/-- The score adjustment of lines 115-128, applied to the language-model
score `base` of the candidate's window sentence. -/
def adjustScore (e : TSpellCorrector) (w cand : W) (knownWord firstLevel : Bool)
    (base : ℚ) : ℚ :=
  if cand = w then base
  else if knownWord then
    (if firstLevel then base - e.KnownWordsPenalty else base * 50)
  else base - e.UnknownWordsPenalty

/-- The final `std::sort` by descending score (lines 132-134), modelled as
a sorting function; `std::sort` leaves the order of equal-score entries
unspecified, and no settled claim relies on this model's tie order. -/
def sortScored (l : List TScoredWord) : List TScoredWord :=
  List.insertionSort (fun a b : TScoredWord => b.Score ≤ a.Score) l

/-- `TSpellCorrector::GetCandidatesScoredRaw` (lines 65-138). -/
def GetCandidatesScoredRaw (e : TSpellCorrector) (sentence : List W)
    (position : Nat) : List TScoredWord :=
  if position < sentence.length then
    let w0 := sentence.getD position []
    let sel := candidateSelection e w0
    if sel.1.isEmpty then []
    else
      let rw := resolveWord e.LangModel w0
      let uniqueCandidates := (sel.1 ++ [rw.1]).dedup
      let pruned := FilterCandidatesByFrequency e uniqueCandidates rw.1
      let scored := pruned.map fun cand =>
        { Word := cand
          Score := adjustScore e rw.1 cand rw.2 sel.2
                     (e.LangModel.score (windowAt sentence position cand)) }
      sortScored scored
  else []

/-- File-level constant (line 518). -/
def SPELL_CHECKER_CACHE_MAGIC_BYTE : Nat := 3811558393781437494

/-- File-level constant (line 519). -/
def SPELL_CHECKER_CACHE_VERSION : Nat := 1

/-- The fields read from a `.spell` cache file, in stream order. -/
structure TCacheFile where
  magicByteHead : Nat
  version : Nat
  checkSum : Nat
  deletes1 : TBloomFilter
  deletes2 : TBloomFilter
  magicByteTail : Nat
deriving DecidableEq

/-- `TSpellCorrector::LoadCache` (lines 521-554).  `none` models an
unopenable file.  The source loads the two filters into local temporaries
before verifying the trailing magic byte and moves them into the members
only after every check passes, which is exactly the update below. -/
def LoadCache : TSpellCorrector → Option TCacheFile → Bool × TSpellCorrector
  | e, none => (false, e)
  | e, some f =>
    if f.magicByteHead ≠ SPELL_CHECKER_CACHE_MAGIC_BYTE then (false, e)
    else if f.version ≠ SPELL_CHECKER_CACHE_VERSION then (false, e)
    else if f.checkSum ≠ e.LangModel.checkSum then (false, e)
    else if f.magicByteTail ≠ SPELL_CHECKER_CACHE_MAGIC_BYTE then (false, e)
    else (true, { e with Deletes1 := f.deletes1, Deletes2 := f.deletes2 })

/-- The filter-sizing computation of `TSpellCorrector::PrepareCache`
(lines 457-476).  The sampling loop increments `n`, adds the word length,
and only then tests `n > 3000`, so it sums the first `min |V| 3001` words.
The 1000 floor is applied to `deletes1size` twice and to `deletes2size`
never, mirroring lines 475-476. -/
def prepareCacheSizes (m : TLangModel) : Nat × Nat :=
  let sample := m.wordToId.take 3001
  let n := sample.length
  let s := (sample.map fun it => it.1.length).sum
  let avgWordLen := max (s / n + 1) 1
  let avgWordLenMinusOne := max 1 (avgWordLen - 1)
  let deletes1size := m.wordToId.length * avgWordLen
  let deletes2size := m.wordToId.length * avgWordLen * avgWordLenMinusOne
  let deletes1size := max 1000 deletes1size
  let deletes1size := max 1000 deletes1size
  (deletes1size, deletes2size)

/-- The per-group filter insertions of the `PrepareCache` build loop
(lines 491-504): for a group `w1 = GetDeletes1 nw ++ [nw]`, insert
`w1.back()` into `Deletes1` and `w1[0] .. w1[size-2]` into `Deletes2`. -/
def insertDeleteGroup (fs : TBloomFilter × TBloomFilter) (w1 : List W) :
    TBloomFilter × TBloomFilter :=
  (fs.1.Insert (w1.getLastD []), w1.dropLast.foldl TBloomFilter.Insert fs.2)

/-- One iteration of the outer build loop of `PrepareCache` (lines
487-514): insert every delete group of one vocabulary word. -/
def prepareCacheStep (fs : TBloomFilter × TBloomFilter) (it : W × Nat) :
    TBloomFilter × TBloomFilter :=
  (GetDeletes2 it.1).foldl insertDeleteGroup fs

/-- The filter contents built by `TSpellCorrector::PrepareCache`
(lines 486-514): walk the vocabulary and insert every delete group. -/
def prepareCacheFilters (m : TLangModel) : TBloomFilter × TBloomFilter :=
  m.wordToId.foldl prepareCacheStep (⟨[]⟩, ⟨[]⟩)

/-- A one-word language model (vocabulary {"ab"}) used to evaluate the
engine on concrete inputs. -/
def exampleModelAB : TLangModel :=
  { wordToId := [(['a','b'], 0)]
    counts := fun _ => 0
    alphabet := ['a','b']
    score := fun _ => 0
    checkSum := 0 }

/-- A language model whose vocabulary {"abc"} has a length-3 word. -/
def exampleModelABC : TLangModel :=
  { wordToId := [(['a','b','c'], 0)]
    counts := fun _ => 0
    alphabet := ['a','b','c']
    score := fun _ => 0
    checkSum := 0 }

/-- A language model with vocabulary {"ab", "abcde"}: "abcde" is at edit
distance exactly 2 from the query "abc". -/
def exampleModelABCDE : TLangModel :=
  { wordToId := [(['a','b'], 0), (['a','b','c','d','e'], 1)]
    counts := fun _ => 0
    alphabet := ['a','b','c','d','e']
    score := fun _ => 0
    checkSum := 0 }

/-- An engine over `exampleModelAB` with its prepared delete-set cache. -/
def exampleEngineAB : TSpellCorrector :=
  { LangModel := exampleModelAB
    Deletes1 := (prepareCacheFilters exampleModelAB).1
    Deletes2 := (prepareCacheFilters exampleModelAB).2
    KnownWordsPenalty := 1
    UnknownWordsPenalty := 2
    MaxCandiatesToCheck := 14 }

/-- An engine over `exampleModelABCDE` with its prepared cache. -/
def exampleEngineABCDE : TSpellCorrector :=
  { LangModel := exampleModelABCDE
    Deletes1 := (prepareCacheFilters exampleModelABCDE).1
    Deletes2 := (prepareCacheFilters exampleModelABCDE).2
    KnownWordsPenalty := 1
    UnknownWordsPenalty := 2
    MaxCandiatesToCheck := 14 }

/-- An engine whose candidate cap is 1, to exercise the frequency pruner. -/
def exampleEnginePrune : TSpellCorrector :=
  { exampleEngineAB with MaxCandiatesToCheck := 1 }

/-- A cache file whose trailing magic byte is corrupted. -/
def corruptCacheFile : TCacheFile :=
  { magicByteHead := SPELL_CHECKER_CACHE_MAGIC_BYTE
    version := SPELL_CHECKER_CACHE_VERSION
    checkSum := 0
    deletes1 := ⟨[]⟩
    deletes2 := ⟨[]⟩
    magicByteTail := 0 }

/-- Candidate selection as the specification words it (spec section 4.C
with section 2's data flow): the symmetric-delete bloom-accelerated
enumeration (`Edits` in the source, `edits2` in the spec) is the primary
entry point and the one-level enumeration (`Edits2` with
`lastLevel = true` in the source, `edits1` in the spec) only a fallback.
Stated for comparison against `candidateSelection`, the source's order. -/
def specCandidateSelection (e : TSpellCorrector) (w : W) : List W × Bool :=
  let primary := Edits e w
  bif primary.isEmpty then (Edits2 e.LangModel w true, false) else (primary, true)

/-- Past the query position, the window loop keeps exactly the tokens with
index at most `position + 2`: starting at index `i > position` it returns
the first `position + 3 - i` tokens. -/
theorem windowGo_of_lt (c : W) (s : List W) : ∀ i p : Nat, p < i →
    windowGo s i p c = s.take (p + 3 - i) := by
  induction s with
  | nil => intro i p _; simp [windowGo]
  | cons t rest ih =>
    intro i p h
    have hne : i ≠ p := by omega
    by_cases h2 : i ≤ p + 2
    · rw [windowGo, if_neg hne, if_pos (Or.inr ⟨h, h2⟩), ih (i + 1) p (by omega)]
      have e1 : p + 3 - i = (p + 3 - (i + 1)) + 1 := by omega
      rw [e1, List.take_succ_cons]
      rfl
    · rw [windowGo, if_neg hne,
        if_neg (by omega : ¬((i < p ∧ p ≤ i + 2) ∨ (p < i ∧ i ≤ p + 2))),
        ih (i + 1) p (by omega)]
      have e1 : p + 3 - i = 0 := by omega
      have e2 : p + 3 - (i + 1) = 0 := by omega
      rw [e1, e2]
      simp

/-- Window-loop characterisation from a start index at or before the query
position: the kept tokens are the up-to-two sentence tokens before the
position, the candidate, and the up-to-two tokens after it. -/
theorem windowGo_of_le (c : W) (s : List W) : ∀ i p : Nat, i ≤ p → p - i < s.length →
    windowGo s i p c =
      ((s.take (p - i)).drop (p - i - 2)) ++ c :: ((s.drop (p - i + 1)).take 2) := by
  induction s with
  | nil => intro i p _ hlen; simp at hlen
  | cons t rest ih =>
    intro i p hip hlen
    by_cases hip2 : i = p
    · subst hip2
      rw [windowGo, if_pos rfl, windowGo_of_lt c rest (i + 1) i (by omega)]
      have e1 : i + 3 - (i + 1) = 2 := by omega
      have e2 : i - i = 0 := by omega
      rw [e1, e2]
      simp
    · have hilt : i < p := by omega
      have hlen2 : p - (i + 1) < rest.length := by
        simp only [List.length_cons] at hlen; omega
      rw [windowGo, if_neg hip2, ih (i + 1) p (by omega) hlen2]
      by_cases hc : p ≤ i + 2
      · rw [if_pos (Or.inl ⟨hilt, hc⟩)]
        have e2 : p - i - 2 = 0 := by omega
        have e3 : p - (i + 1) - 2 = 0 := by omega
        have e1 : p - i = (p - (i + 1)) + 1 := by omega
        rw [e2, e3, e1, List.take_succ_cons, List.drop_succ_cons]
        simp
      · rw [if_neg (by omega : ¬((i < p ∧ p ≤ i + 2) ∨ (p < i ∧ i ≤ p + 2)))]
        have e1 : p - i = (p - (i + 1)) + 1 := by omega
        rw [e1, List.take_succ_cons, List.drop_succ_cons]
        have e2 : p - (i + 1) + 1 - 2 = (p - (i + 1) - 2) + 1 := by omega
        rw [e2, List.drop_succ_cons]
        simp

/-- C6: for every sentence, in-range position `p` and candidate `c`, the
sentence passed to the language-model `Score` call consists exactly of the
tokens at positions `p-2`, `p-1`, `c` (at `p`), `p+1`, `p+2` of the
original sentence in order, with positions outside `[0, sentence.size)`
omitted: it equals the slice of the two tokens before `p`, then `c`, then
the two tokens after `p`, each slice clipped at the sentence bounds. -/
theorem medspell_c6 (sentence : List W) (position : Nat) (cand : W)
    (h : position < sentence.length) :
    windowAt sentence position cand =
      ((sentence.take position).drop (position - 2)) ++ cand ::
        ((sentence.drop (position + 1)).take 2) := by
  have hw := windowGo_of_le cand sentence 0 position (Nat.zero_le _) (by simpa)
  simpa [windowAt] using hw

/-- Witness for C6: a six-token sentence with the query at position 2. -/
theorem medspell_c6_witness :
    windowAt [['a'], ['b'], ['c'], ['d'], ['e'], ['f']] 2 ['x'] =
      (([['a'], ['b'], ['c'], ['d'], ['e'], ['f']].take 2).drop 0) ++ ['x'] ::
        (([['a'], ['b'], ['c'], ['d'], ['e'], ['f']].drop 3).take 2) :=
  medspell_c6 [['a'], ['b'], ['c'], ['d'], ['e'], ['f']] 2 ['x'] (by decide)

/-- C9: for every sentence and every position greater than or equal to the
sentence length, the candidate query returns an empty ranked list. -/
theorem medspell_c9 (e : TSpellCorrector) (sentence : List W) (position : Nat)
    (h : sentence.length ≤ position) :
    GetCandidatesScoredRaw e sentence position = [] := by
  unfold GetCandidatesScoredRaw
  rw [if_neg (by omega)]

/-- Witness for C9: a one-token sentence queried at position 5. -/
theorem medspell_c9_witness :
    GetCandidatesScoredRaw exampleEngineAB [['a', 'b']] 5 = [] :=
  medspell_c9 exampleEngineAB [['a', 'b']] 5 (by decide)

/-- Counterexample for C1 as stated: on the engine over vocabulary
{"ab", "abcde"} and the query word "abc", the candidate list the source
selects (lines 72-79: `Edits2` first, `Edits` as fallback) differs from
the list selected by the specification's order (symmetric-delete `Edits`
first): the source's primary list misses "abcde", which is at edit
distance 2 and only reachable through the bloom-filter enumeration. -/
theorem medspell_c1_counterexample :
    (candidateSelection exampleEngineABCDE ['a', 'b', 'c']).1 ≠
      (specCandidateSelection exampleEngineABCDE ['a', 'b', 'c']).1 := by decide

/-- C1 amended: candidate generation first runs the one-level edit
enumeration (`Edits2` with the default `lastLevel = true`: delete,
transpose, replace, insert) as the primary entry point, and runs the
bloom-filter symmetric-delete enumeration (`Edits`) only as a fallback
when the primary enumeration returns no candidates. -/
theorem medspell_c1_amended (e : TSpellCorrector) (w : W) :
    ((Edits2 e.LangModel w true).isEmpty = false →
      candidateSelection e w = (Edits2 e.LangModel w true, true))
  ∧ ((Edits2 e.LangModel w true).isEmpty = true →
      candidateSelection e w = (Edits e w, false)) := by
  constructor <;> intro h <;> simp [candidateSelection, h]

/-- Witness for the amended C1: on the {"ab", "abcde"} engine the primary
one-level enumeration of "abc" is nonempty and is the selected list. -/
theorem medspell_c1_witness :
    candidateSelection exampleEngineABCDE ['a', 'b', 'c'] =
      (Edits2 exampleEngineABCDE.LangModel ['a', 'b', 'c'] true, true) :=
  (medspell_c1_amended exampleEngineABCDE ['a', 'b', 'c']).1 (by decide)

/-- C4: cache loading is atomic.  A failed check (absent file, leading
magic byte, version, model checksum, or trailing magic byte) returns
`false` and leaves the engine unchanged; success implies every check
passed and replaces exactly the two filters, together. -/
theorem medspell_c4 (e : TSpellCorrector) (file : Option TCacheFile) :
    ((LoadCache e file).1 = false → (LoadCache e file).2 = e)
  ∧ (∀ f : TCacheFile, file = some f →
      (f.magicByteHead ≠ SPELL_CHECKER_CACHE_MAGIC_BYTE ∨
       f.version ≠ SPELL_CHECKER_CACHE_VERSION ∨
       f.checkSum ≠ e.LangModel.checkSum ∨
       f.magicByteTail ≠ SPELL_CHECKER_CACHE_MAGIC_BYTE) →
      LoadCache e file = (false, e))
  ∧ ((LoadCache e file).1 = true →
      ∃ f : TCacheFile, file = some f
        ∧ f.magicByteHead = SPELL_CHECKER_CACHE_MAGIC_BYTE
        ∧ f.version = SPELL_CHECKER_CACHE_VERSION
        ∧ f.checkSum = e.LangModel.checkSum
        ∧ f.magicByteTail = SPELL_CHECKER_CACHE_MAGIC_BYTE
        ∧ (LoadCache e file).2 =
            { e with Deletes1 := f.deletes1, Deletes2 := f.deletes2 }) := by
  cases file with
  | none =>
    exact ⟨fun _ => rfl, fun f hf => Option.noConfusion hf, fun h => Bool.noConfusion h⟩
  | some f =>
    simp only [LoadCache]
    split_ifs with h1 h2 h3 h4
    · exact ⟨fun _ => rfl, fun g _ _ => rfl, fun h => by simp at h⟩
    · exact ⟨fun _ => rfl, fun g _ _ => rfl, fun h => by simp at h⟩
    · exact ⟨fun _ => rfl, fun g _ _ => rfl, fun h => by simp at h⟩
    · exact ⟨fun _ => rfl, fun g _ _ => rfl, fun h => by simp at h⟩
    · refine ⟨fun h => by simp at h, ?_, ?_⟩
      · intro g hg hbad
        cases hg
        rcases hbad with hb | hb | hb | hb
        · exact absurd hb h1
        · exact absurd hb h2
        · exact absurd hb h3
        · exact absurd hb h4
      · intro _
        exact ⟨f, rfl, of_not_not h1, of_not_not h2, of_not_not h3, of_not_not h4, rfl⟩

/-- Witness for C4: a file whose trailing magic byte is corrupted makes
`LoadCache` fail and leaves the engine unchanged. -/
theorem medspell_c4_witness :
    LoadCache exampleEngineAB (some corruptCacheFile) = (false, exampleEngineAB) :=
  (medspell_c4 exampleEngineAB (some corruptCacheFile)).2.1 corruptCacheFile rfl (by decide)

/-- Inserting a key preserves every containment the filter reports. -/
theorem TBloomFilter.Contains_Insert_of (f : TBloomFilter) (s x : W)
    (h : f.Contains x = true) : (f.Insert s).Contains x = true := by
  simp only [TBloomFilter.Contains, TBloomFilter.Insert, decide_eq_true_eq,
    List.mem_append] at h ⊢
  exact Or.inl h

/-- A freshly inserted key is reported as contained. -/
theorem TBloomFilter.Contains_Insert_self (f : TBloomFilter) (s : W) :
    (f.Insert s).Contains s = true := by
  simp [TBloomFilter.Contains, TBloomFilter.Insert]

/-- Folded insertion preserves containment. -/
theorem contains_foldl_Insert_of_contains (l : List W) (f : TBloomFilter) (x : W)
    (h : f.Contains x = true) : (l.foldl TBloomFilter.Insert f).Contains x = true := by
  induction l generalizing f with
  | nil => exact h
  | cons a t ih => exact ih _ (TBloomFilter.Contains_Insert_of f a x h)

/-- Folded insertion reports every inserted key as contained. -/
theorem contains_foldl_Insert_of_mem (l : List W) (f : TBloomFilter) (x : W)
    (h : x ∈ l) : (l.foldl TBloomFilter.Insert f).Contains x = true := by
  induction l generalizing f with
  | nil => cases h
  | cons a t ih =>
    cases h with
    | head =>
      exact contains_foldl_Insert_of_contains t (f.Insert x) x
        (TBloomFilter.Contains_Insert_self f x)
    | tail _ h2 => exact ih _ h2

/-- Containment in the first filter survives a delete-group insertion. -/
theorem insertDeleteGroup_mono1 (fs : TBloomFilter × TBloomFilter) (w1 : List W)
    (x : W) (h : fs.1.Contains x = true) :
    (insertDeleteGroup fs w1).1.Contains x = true :=
  TBloomFilter.Contains_Insert_of _ _ _ h

/-- Containment in the second filter survives a delete-group insertion. -/
theorem insertDeleteGroup_mono2 (fs : TBloomFilter × TBloomFilter) (w1 : List W)
    (x : W) (h : fs.2.Contains x = true) :
    (insertDeleteGroup fs w1).2.Contains x = true :=
  contains_foldl_Insert_of_contains _ _ _ h

/-- A delete-group insertion reports the group's last element in the first
filter. -/
theorem insertDeleteGroup_last (fs : TBloomFilter × TBloomFilter) (w1 : List W) :
    (insertDeleteGroup fs w1).1.Contains (w1.getLastD []) = true :=
  TBloomFilter.Contains_Insert_self _ _

/-- A delete-group insertion reports every non-last element in the second
filter. -/
theorem insertDeleteGroup_dropLast (fs : TBloomFilter × TBloomFilter)
    (w1 : List W) (x : W) (h : x ∈ w1.dropLast) :
    (insertDeleteGroup fs w1).2.Contains x = true :=
  contains_foldl_Insert_of_mem _ _ _ h

/-- Folding delete groups preserves containment in both filters. -/
theorem foldl_group_mono (groups : List (List W)) (fs : TBloomFilter × TBloomFilter)
    (x : W) :
    (fs.1.Contains x = true →
      (groups.foldl insertDeleteGroup fs).1.Contains x = true)
  ∧ (fs.2.Contains x = true →
      (groups.foldl insertDeleteGroup fs).2.Contains x = true) := by
  induction groups generalizing fs with
  | nil => exact ⟨id, id⟩
  | cons g t ih =>
    exact ⟨fun h => (ih _).1 (insertDeleteGroup_mono1 _ _ _ h),
      fun h => (ih _).2 (insertDeleteGroup_mono2 _ _ _ h)⟩

/-- Folding a list of delete groups establishes the containments of every
member group. -/
theorem foldl_group_mem (groups : List (List W)) (fs : TBloomFilter × TBloomFilter)
    (w1 : List W) (h : w1 ∈ groups) :
    ((groups.foldl insertDeleteGroup fs).1.Contains (w1.getLastD []) = true)
  ∧ (∀ x ∈ w1.dropLast,
      (groups.foldl insertDeleteGroup fs).2.Contains x = true) := by
  induction groups generalizing fs with
  | nil => cases h
  | cons g t ih =>
    cases h with
    | head =>
      exact ⟨(foldl_group_mono t _ _).1 (insertDeleteGroup_last fs w1),
        fun x hx => (foldl_group_mono t _ _).2 (insertDeleteGroup_dropLast fs w1 x hx)⟩
    | tail _ h2 => exact ih _ h2

/-- Walking vocabulary entries preserves containment in both filters. -/
theorem foldl_vocab_mono (entries : List (W × Nat)) (fs : TBloomFilter × TBloomFilter)
    (x : W) :
    (fs.1.Contains x = true →
      (entries.foldl prepareCacheStep fs).1.Contains x = true)
  ∧ (fs.2.Contains x = true →
      (entries.foldl prepareCacheStep fs).2.Contains x = true) := by
  induction entries generalizing fs with
  | nil => exact ⟨id, id⟩
  | cons it t ih =>
    exact ⟨fun h => (ih _).1 ((foldl_group_mono _ fs x).1 h),
      fun h => (ih _).2 ((foldl_group_mono _ fs x).2 h)⟩

/-- Walking the vocabulary establishes, for every member word, the
containments of each of its delete groups. -/
theorem foldl_vocab_mem (entries : List (W × Nat)) (fs : TBloomFilter × TBloomFilter)
    (w : W) (idw : Nat) (h : (w, idw) ∈ entries) (w1 : List W)
    (hw1 : w1 ∈ GetDeletes2 w) :
    ((entries.foldl prepareCacheStep fs).1.Contains (w1.getLastD []) = true)
  ∧ (∀ x ∈ w1.dropLast,
      (entries.foldl prepareCacheStep fs).2.Contains x = true) := by
  induction entries generalizing fs with
  | nil => cases h
  | cons it t ih =>
    cases h with
    | head =>
      have hstep := foldl_group_mem (GetDeletes2 w) fs w1 hw1
      exact ⟨(foldl_vocab_mono t _ _).1 hstep.1,
        fun x hx => (foldl_vocab_mono t _ _).2 (hstep.2 x hx)⟩
    | tail _ h2 => exact ih _ h2

/-- Length of a single-character deletion. -/
theorem length_eraseAt (w : W) (i : Nat) (h : i < w.length) :
    (eraseAt w i).length = w.length - 1 := by
  simp [eraseAt]
  omega

/-- A single deletion of a word of length at least 2 is nonempty. -/
theorem isEmpty_eraseAt (w : W) (i : Nat) (h : i < w.length) (h2 : 2 ≤ w.length) :
    (eraseAt w i).isEmpty = false := by
  have hl := length_eraseAt w i h
  rcases e : eraseAt w i with _ | ⟨a, t⟩
  · rw [e] at hl
    simp at hl
    omega
  · rfl

/-- Every nonempty single deletion is produced by `GetDeletes1`. -/
theorem mem_GetDeletes1 (w : W) (j : Nat) (h : j < w.length)
    (hne : (eraseAt w j).isEmpty = false) : eraseAt w j ∈ GetDeletes1 w := by
  unfold GetDeletes1
  refine List.mem_filterMap.2 ⟨j, List.mem_range.2 h, ?_⟩
  simp [hne]

/-- Every nonempty single deletion yields its group in `GetDeletes2`. -/
theorem mem_GetDeletes2 (w : W) (i : Nat) (h : i < w.length)
    (hne : (eraseAt w i).isEmpty = false) :
    (GetDeletes1 (eraseAt w i) ++ [eraseAt w i]) ∈ GetDeletes2 w := by
  unfold GetDeletes2
  refine List.mem_filterMap.2 ⟨i, List.mem_range.2 h, ?_⟩
  simp [hne]

/-- C2 amended: after delete-set cache construction, for every vocabulary
word `w` of length at least 2, every single-character-deletion string of
`w` is reported as contained by the `Deletes1` filter; and for every word
of length at least 3 every two-character-deletion string (these are
exactly the nonempty double deletions) is reported as contained by the
`Deletes2` filter.  The length-0 double deletion of a length-2 word is
skipped by the build (`GetDeletes1` drops empty strings), which is what
the counterexample below exhibits. -/
theorem medspell_c2_amended (m : TLangModel) (w : W) (idw : Nat)
    (hmem : (w, idw) ∈ m.wordToId) :
    (2 ≤ w.length → ∀ i, i < w.length →
      (prepareCacheFilters m).1.Contains (eraseAt w i) = true)
  ∧ (3 ≤ w.length → ∀ i, i < w.length → ∀ j, j < w.length - 1 →
      (prepareCacheFilters m).2.Contains (eraseAt (eraseAt w i) j) = true) := by
  constructor
  · intro h2 i hi
    have hne := isEmpty_eraseAt w i hi h2
    have hgrp := mem_GetDeletes2 w i hi hne
    have hres := foldl_vocab_mem m.wordToId (⟨[]⟩, ⟨[]⟩) w idw hmem _ hgrp
    have hlast : (GetDeletes1 (eraseAt w i) ++ [eraseAt w i]).getLastD [] = eraseAt w i :=
      List.getLastD_concat _ _ _
    rw [hlast] at hres
    exact hres.1
  · intro h3 i hi j hj
    have h2 : 2 ≤ w.length := by omega
    have hne := isEmpty_eraseAt w i hi h2
    have hgrp := mem_GetDeletes2 w i hi hne
    have hres := foldl_vocab_mem m.wordToId (⟨[]⟩, ⟨[]⟩) w idw hmem _ hgrp
    have hdrop : (GetDeletes1 (eraseAt w i) ++ [eraseAt w i]).dropLast =
        GetDeletes1 (eraseAt w i) := List.dropLast_concat
    rw [hdrop] at hres
    have hjlen : j < (eraseAt w i).length := by
      rw [length_eraseAt w i hi]; exact hj
    have hne2 : (eraseAt (eraseAt w i) j).isEmpty = false := by
      refine isEmpty_eraseAt _ j hjlen ?_
      rw [length_eraseAt w i hi]; omega
    exact hres.2 _ (mem_GetDeletes1 _ j hjlen hne2)

/-- Witness for the amended C2: in the vocabulary {"abc"}, the single
deletion "ac" is reported by `Deletes1` and the double deletion "c" by
`Deletes2`. -/
theorem medspell_c2_witness :
    (prepareCacheFilters exampleModelABC).1.Contains (eraseAt ['a', 'b', 'c'] 1) = true
  ∧ (prepareCacheFilters exampleModelABC).2.Contains
      (eraseAt (eraseAt ['a', 'b', 'c'] 0) 0) = true :=
  ⟨(medspell_c2_amended exampleModelABC ['a', 'b', 'c'] 0 (by decide)).1 (by decide)
      1 (by decide),
   (medspell_c2_amended exampleModelABC ['a', 'b', 'c'] 0 (by decide)).2 (by decide)
      0 (by decide) 0 (by decide)⟩

/-- Counterexample for C2 as stated: "ab" is a vocabulary word of length 2,
its unique two-character-deletion string (of length 0) is the empty
string, and after cache construction the `Deletes2` filter does not report
it: the build inserts no key for it. -/
theorem medspell_c2_counterexample :
    ((['a', 'b'] : W), 0) ∈ exampleModelAB.wordToId
  ∧ (['a', 'b'] : W).length = 2
  ∧ eraseAt (eraseAt ['a', 'b'] 0) 0 = []
  ∧ (prepareCacheFilters exampleModelAB).2.Contains
      (eraseAt (eraseAt ['a', 'b'] 0) 0) = false := by decide

/-- Ordered insertion of an element satisfying `p` prepends it to the
filtered list, provided every element it can be placed behind fails `p`. -/
theorem filter_orderedInsert_pos {α : Type} (r : α → α → Prop) [DecidableRel r]
    (p : α → Bool) (a : α) (l : List α) (hpa : p a = true)
    (h : ∀ b, ¬r a b → p b = false) :
    (List.orderedInsert r a l).filter p = a :: l.filter p := by
  induction l with
  | nil => simp [hpa]
  | cons b t ih =>
    rw [List.orderedInsert]
    by_cases hr : r a b
    · rw [if_pos hr]
      simp [List.filter_cons, hpa]
    · rw [if_neg hr]
      simp [List.filter_cons, h b hr, ih]

/-- Ordered insertion of an element failing `p` leaves the filtered list
unchanged. -/
theorem filter_orderedInsert_neg {α : Type} (r : α → α → Prop) [DecidableRel r]
    (p : α → Bool) (a : α) (l : List α) (hpa : p a = false) :
    (List.orderedInsert r a l).filter p = l.filter p := by
  induction l with
  | nil => simp [hpa]
  | cons b t ih =>
    rw [List.orderedInsert]
    by_cases hr : r a b
    · rw [if_pos hr]
      simp [List.filter_cons, hpa]
    · rw [if_neg hr]
      simp [List.filter_cons, ih]

/-- Stability of insertion sort: when elements strictly preceding a
`p`-element under `r` never satisfy `p`, sorting preserves the filtered
sublist, i.e. the relative order of the elements satisfying `p`. -/
theorem filter_insertionSort {α : Type} (r : α → α → Prop) [DecidableRel r]
    (p : α → Bool) (h : ∀ a b, p a = true → ¬r a b → p b = false) (l : List α) :
    (List.insertionSort r l).filter p = l.filter p := by
  induction l with
  | nil => rfl
  | cons a t ih =>
    rw [List.insertionSort]
    cases hpa : p a with
    | true =>
      rw [filter_orderedInsert_pos r p a _ hpa (fun b hr => h a b hpa hr), ih,
        List.filter_cons]
      simp [hpa]
    | false =>
      rw [filter_orderedInsert_neg r p a _ hpa, ih, List.filter_cons]
      simp [hpa]

/-- The frequency pruner always keeps the original query token when it was
in the incoming candidate set. -/
theorem mem_filterCandidates_orig (e : TSpellCorrector) (uniq : List W) (orig : W)
    (h : orig ∈ uniq) : orig ∈ FilterCandidatesByFrequency e uniq orig := by
  simp only [FilterCandidatesByFrequency]
  split_ifs with h1 h2
  · exact h
  · exact h2
  · exact List.mem_append.2 (Or.inr (List.mem_singleton.2 rfl))

/-- C3: the frequency pruner returns a small candidate set unchanged;
the original query token, when present in the input, is always present in
the post-pruned set; and an oversized set is cut to the first
`MaxCandiatesToCheck` entries of a list that is a permutation of the
counted candidates, is sorted by descending `GetWordCount`, and is stable
(for every count value the elements carrying it keep their input order),
after which the original query token is added back. -/
theorem medspell_c3 (e : TSpellCorrector) (uniq : List W) (orig : W) :
    (uniq.length ≤ e.MaxCandiatesToCheck →
      FilterCandidatesByFrequency e uniq orig = uniq)
  ∧ (orig ∈ uniq → orig ∈ FilterCandidatesByFrequency e uniq orig)
  ∧ (e.MaxCandiatesToCheck < uniq.length →
      ∃ sorted : List (Nat × W),
        sorted.Perm (uniq.map fun c => (wordCountOf e.LangModel c, c))
        ∧ List.Sorted (fun a b : Nat × W => b.1 ≤ a.1) sorted
        ∧ (∀ v : Nat, sorted.filter (fun x => decide (x.1 = v)) =
            (uniq.map fun c => (wordCountOf e.LangModel c, c)).filter
              (fun x => decide (x.1 = v)))
        ∧ FilterCandidatesByFrequency e uniq orig =
            (if orig ∈ (sorted.take e.MaxCandiatesToCheck).map Prod.snd
             then (sorted.take e.MaxCandiatesToCheck).map Prod.snd
             else (sorted.take e.MaxCandiatesToCheck).map Prod.snd ++ [orig])) := by
  refine ⟨?_, mem_filterCandidates_orig e uniq orig, ?_⟩
  · intro hle
    simp only [FilterCandidatesByFrequency]
    rw [if_pos hle]
  · intro hgt
    refine ⟨List.insertionSort (fun a b : Nat × W => b.1 ≤ a.1)
        (uniq.map fun c => (wordCountOf e.LangModel c, c)), ?_, ?_, ?_, ?_⟩
    · exact List.perm_insertionSort _ _
    · haveI : IsTotal (Nat × W) (fun a b => b.1 ≤ a.1) := ⟨fun a b => le_total b.1 a.1⟩
      haveI : IsTrans (Nat × W) (fun a b => b.1 ≤ a.1) :=
        ⟨fun _ _ _ hab hbc => le_trans hbc hab⟩
      exact List.sorted_insertionSort _ _
    · intro v
      refine filter_insertionSort _ _ ?_ _
      intro a b hpa hr
      simp only [decide_eq_true_eq] at hpa
      simp only [decide_eq_false_iff_not]
      have hab : a.1 < b.1 := Nat.not_le.1 hr
      omega
    · simp only [FilterCandidatesByFrequency]
      rw [if_neg (by omega : ¬(uniq.length ≤ e.MaxCandiatesToCheck))]

/-- Witness for C3: with cap 1 and the three-candidate set {a, b, c} of
equal counts, the pruner keeps the first candidate and re-adds the
original query token "c". -/
theorem medspell_c3_witness :
    (['c'] : W) ∈ FilterCandidatesByFrequency exampleEnginePrune
      [['a'], ['b'], ['c']] ['c'] :=
  (medspell_c3 exampleEnginePrune [['a'], ['b'], ['c']] ['c']).2.1 (by decide)

/-- C5: every scored candidate of a correction query carries the
language-model score of its window sentence, adjusted as follows: the
identity candidate is unchanged; otherwise, when the original word was in
the vocabulary, the score is decreased by `KnownWordsPenalty` when the
candidates came from the first edit level and multiplied by 50 when they
came from the fallback level; otherwise it is decreased by
`UnknownWordsPenalty`. -/
theorem medspell_c5 (e : TSpellCorrector) (sentence : List W) (position : Nat)
    (h : position < sentence.length) (entry : TScoredWord)
    (hmem : entry ∈ GetCandidatesScoredRaw e sentence position) :
    entry.Score =
      (if entry.Word = (resolveWord e.LangModel (sentence.getD position [])).1
       then e.LangModel.score (windowAt sentence position entry.Word)
       else if (resolveWord e.LangModel (sentence.getD position [])).2
       then (if (candidateSelection e (sentence.getD position [])).2
             then e.LangModel.score (windowAt sentence position entry.Word) -
               e.KnownWordsPenalty
             else e.LangModel.score (windowAt sentence position entry.Word) * 50)
       else e.LangModel.score (windowAt sentence position entry.Word) -
         e.UnknownWordsPenalty) := by
  simp only [GetCandidatesScoredRaw] at hmem
  rw [if_pos h] at hmem
  by_cases hsel : (candidateSelection e (sentence.getD position [])).1.isEmpty = true
  · rw [if_pos hsel] at hmem
    cases hmem
  · rw [if_neg hsel] at hmem
    simp only [sortScored] at hmem
    have hm2 := (List.mem_insertionSort _).1 hmem
    rcases List.mem_map.1 hm2 with ⟨cand, _, hEq⟩
    rw [← hEq]
    simp only [adjustScore]

/-- Witness for C5: in the identity query over the {"ab"} engine the sole
scored entry carries the unadjusted window score. -/
theorem medspell_c5_witness :
    (⟨['a', 'b'], (0 : ℚ)⟩ : TScoredWord).Score =
      (if (⟨['a', 'b'], (0 : ℚ)⟩ : TScoredWord).Word =
          (resolveWord exampleEngineAB.LangModel ([[ 'a', 'b']].getD 0 [])).1
       then exampleEngineAB.LangModel.score
         (windowAt [['a', 'b']] 0 (⟨['a', 'b'], (0 : ℚ)⟩ : TScoredWord).Word)
       else if (resolveWord exampleEngineAB.LangModel ([[ 'a', 'b']].getD 0 [])).2
       then (if (candidateSelection exampleEngineAB ([[ 'a', 'b']].getD 0 [])).2
             then exampleEngineAB.LangModel.score
               (windowAt [['a', 'b']] 0 (⟨['a', 'b'], (0 : ℚ)⟩ : TScoredWord).Word) -
                 exampleEngineAB.KnownWordsPenalty
             else exampleEngineAB.LangModel.score
               (windowAt [['a', 'b']] 0 (⟨['a', 'b'], (0 : ℚ)⟩ : TScoredWord).Word) * 50)
       else exampleEngineAB.LangModel.score
         (windowAt [['a', 'b']] 0 (⟨['a', 'b'], (0 : ℚ)⟩ : TScoredWord).Word) -
           exampleEngineAB.UnknownWordsPenalty) :=
  medspell_c5 exampleEngineAB [['a', 'b']] 0 (by decide) ⟨['a', 'b'], (0 : ℚ)⟩
    (by decide)

/-- C10: whenever an in-range candidate query returns a non-empty list,
the list contains the query word's own token — its canonical vocabulary
token when the word is known, the original token otherwise (both are the
same code-point sequence, which is what a token denotes here); it survives
deduplication, frequency pruning, scoring and sorting. -/
theorem medspell_c10 (e : TSpellCorrector) (sentence : List W) (position : Nat)
    (h : position < sentence.length)
    (hne : GetCandidatesScoredRaw e sentence position ≠ []) :
    (resolveWord e.LangModel (sentence.getD position [])).1 ∈
      (GetCandidatesScoredRaw e sentence position).map TScoredWord.Word := by
  simp only [GetCandidatesScoredRaw] at hne ⊢
  rw [if_pos h] at hne ⊢
  by_cases hsel : (candidateSelection e (sentence.getD position [])).1.isEmpty = true
  · rw [if_pos hsel] at hne
    exact absurd rfl hne
  · rw [if_neg hsel]
    have hmemu : (resolveWord e.LangModel (sentence.getD position [])).1 ∈
        ((candidateSelection e (sentence.getD position [])).1 ++
          [(resolveWord e.LangModel (sentence.getD position [])).1]).dedup :=
      List.mem_dedup.2 (List.mem_append.2 (Or.inr (List.mem_singleton.2 rfl)))
    have hpr := mem_filterCandidates_orig e
      (((candidateSelection e (sentence.getD position [])).1 ++
        [(resolveWord e.LangModel (sentence.getD position [])).1]).dedup)
      (resolveWord e.LangModel (sentence.getD position [])).1 hmemu
    simp only [sortScored]
    exact List.mem_map_of_mem TScoredWord.Word
      ((List.mem_insertionSort _).2 (List.mem_map_of_mem _ hpr))

/-- Witness for C10: the identity query over the {"ab"} engine returns a
non-empty list containing the query token "ab". -/
theorem medspell_c10_witness :
    (resolveWord exampleEngineAB.LangModel ([[ 'a', 'b']].getD 0 [])).1 ∈
      (GetCandidatesScoredRaw exampleEngineAB [['a', 'b']] 0).map TScoredWord.Word :=
  medspell_c10 exampleEngineAB [['a', 'b']] 0 (by decide) (by decide)

/-- C7 evaluated at the failing input (a one-word vocabulary {"ab"}): the
`Deletes1` expected capacity is floored at 1000 but the `Deletes2`
capacity is computed as 6 and never floored — lines 475-476 apply the
floor to `deletes1size` twice and to `deletes2size` not at all. -/
theorem medspell_c7_eval :
    prepareCacheSizes exampleModelAB = (1000, 6) ∧ 6 < 1000 := by decide

end MedSpell
